import Mathlib

/-!
Verification development for the `exec-sanitize` repository.

The repository sanitizes a child process's output streams by an ordered list
of pattern/replacement rules.  Two generations of the engine exist in the
sources and both are embedded here:

* the string engine (`pkg/execsanitize/execsanitize.go`, current version):
  a `Sanitizer` holds `Rules`, each a compiled pattern plus a
  `ReplacerFunc`; `Sanitize` runs `ReplaceAllStringFunc` per rule and
  short-circuits to the empty string when a replacer returns
  `DiscardToken` (`"\x03\x03"`);

* the byte engine (`Sanitizer`/`New` of the byte version of
  `execsanitize.go`): parallel `Patterns`/`Replacements` slices, the
  `"@discard"` / `"@@discard"` token pair, and `ReplaceAllLiteral`.

Strings and byte slices are both modelled as `List Char` (all data in play
is ASCII, where Go bytes and runes coincide).  Go closures that capture
mutable variables (the correlation logger's `loggerIdx`) are modelled by
explicit state passing: a replacer takes and returns a state of type `σ`.
The Go `regexp` library is external to the repository; it is modelled by a
small regex AST with leftmost-first, greedy (preference-order) matching,
the semantics Go's `regexp` applies to the patterns appearing in this
repository (no anchors, classes or capture-group replacement are needed).
-/

set_option maxRecDepth 20000

namespace ExecSanitize

/-- Character sequences: the model of both Go `string` and `[]byte`. -/
abbrev Str := List Char

/-! Regex AST and leftmost-first matching (model of Go `regexp`) -/

/-- Regular expressions, as needed by the repository's patterns:
empty word, single character, any character (`.`), concatenation,
alternation and Kleene star (`x+` is parsed as `x` · `x*`). -/
inductive Regex where
  | emptyR : Regex
  | chr : Char → Regex
  | dot : Regex
  | cat : Regex → Regex → Regex
  | alt : Regex → Regex → Regex
  | star : Regex → Regex
deriving DecidableEq, Repr

/-- All ways a regex can match a prefix of the input, returned as the list
of remaining suffixes in backtracking preference order (greedy
quantifiers, left-biased alternation) — the order Go's regexp uses to pick
the match.  `fuel` decreases on every recursive call (so the definition is
structural and kernel-computable); a star unfolding must consume at least
one character, so the recursion depth — and hence a sufficient fuel — is
bounded by `(s.length + 1) * (sizeOf r + 1)` (`mFuel`). -/
def mEnds : Nat → Regex → Str → List Str
  | 0, _, _ => []
  | _ + 1, Regex.emptyR, s => [s]
  | _ + 1, Regex.chr _, [] => []
  | _ + 1, Regex.chr c, x :: xs => if x = c then [xs] else []
  | _ + 1, Regex.dot, [] => []
  | _ + 1, Regex.dot, x :: xs => if x = '\n' then [] else [xs]
  | f + 1, Regex.cat r₁ r₂, s => (mEnds f r₁ s).flatMap (mEnds f r₂)
  | f + 1, Regex.alt r₁ r₂, s => mEnds f r₁ s ++ mEnds f r₂ s
  | f + 1, Regex.star r, s =>
      ((mEnds f r s).flatMap
        (fun s' => if s'.length < s.length then mEnds f (Regex.star r) s' else [])) ++ [s]

/-- Structural size of a regex, used only to compute sufficient fuel. -/
def rsize : Regex → Nat
  | Regex.emptyR => 1
  | Regex.chr _ => 1
  | Regex.dot => 1
  | Regex.cat r₁ r₂ => rsize r₁ + rsize r₂ + 1
  | Regex.alt r₁ r₂ => rsize r₁ + rsize r₂ + 1
  | Regex.star r => rsize r + 1

/-- Fuel sufficient for `mEnds` to explore every backtracking path of `r`
on `s`. -/
def mFuel (r : Regex) (s : Str) : Nat := (s.length + 1) * (rsize r + 1)

/-- The leftmost match of `r` in `s`: scan positions left to right and at
the first position where `r` matches, take its preferred (first) match.
Returns the match's start position and length. -/
def findLeftmost (r : Regex) : Str → Option (Nat × Nat)
  | [] => ((mEnds (mFuel r []) r []).head?).map (fun _ => (0, 0))
  | c :: rest =>
    match (mEnds (mFuel r (c :: rest)) r (c :: rest)).head? with
    | some suf => some (0, rest.length + 1 - suf.length)
    | none => (findLeftmost r rest).map (fun pl => (pl.1 + 1, pl.2))

/-- A compiled pattern, abstracted to its matching capability: the
leftmost match (position, length) in a given string, if any. -/
abbrev Matcher := Str → Option (Nat × Nat)

/-- The matcher of a compiled regex (model of a `*regexp.Regexp` value). -/
def regexMatcher (r : Regex) : Matcher := findLeftmost r

/-- Model of `Regexp.Match`: does the pattern match anywhere in `s`? -/
def rmatch (m : Matcher) (s : Str) : Bool := (m s).isSome

/-- Model of Go's `ReplaceAllStringFunc` with a stateful replacement
function: repeatedly find the leftmost match in the remaining input,
invoke `f` on the matched text (threading the state), substitute its
result, and continue scanning after the match (non-overlapping); an empty
match advances one character.  `fuel` bounds the number of matches; every
recursive call drops at least one character of the remaining input, so
`s.length + 1` is always enough. -/
def replaceAllFunc {σ : Type} : Nat → Matcher → (Str → σ → Str × σ) → Str → σ → Str × σ
  | 0, _, _, s, st => (s, st)
  | fuel + 1, m, f, s, st =>
    match m s with
    | none => (s, st)
    | some (p, l) =>
      match f (List.take l (List.drop p s)) st with
      | (rep, st₁) =>
        if l = 0 then
          match List.drop p s with
          | [] => (List.take p s ++ rep, st₁)
          | c :: rest =>
            match replaceAllFunc fuel m f rest st₁ with
            | (tail, st₂) => (List.take p s ++ rep ++ c :: tail, st₂)
        else
          match replaceAllFunc fuel m f (List.drop (p + l) s) st₁ with
          | (tail, st₂) => (List.take p s ++ rep ++ tail, st₂)

/-- Model of `ReplaceAllStringFunc` with the standard sufficient fuel. -/
def goReplaceAllFunc {σ : Type} (m : Matcher) (f : Str → σ → Str × σ) (s : Str) (st : σ) :
    Str × σ :=
  replaceAllFunc (s.length + 1) m f s st

/-! Regex compilation (model of `regexp.Compile` / `regexp.QuoteMeta`) -/

/-- The characters Go's `regexp.QuoteMeta` escapes (its `specialBytes`
set): every character with metacharacter significance. -/
def specialChars : List Char :=
  ['\\', '.', '+', '*', '?', '(', ')', '|', '[', ']', '\x7b', '\x7d', '^', '$']

/-- Model of `regexp.QuoteMeta`: prefix every metacharacter with a
backslash, leaving all other characters alone. -/
def quoteMeta (s : Str) : Str :=
  (s.map (fun c => if c ∈ specialChars then ['\\', c] else [c])).flatten

/-- Postfix quantifiers: consume any `*`, `+` or `?` following an atom
(`x+` becomes `x · x*`, `x?` becomes `x | ε`). -/
def parsePostfix (r : Regex) : Str → Regex × Str
  | [] => (r, [])
  | c :: rest =>
    if c = '*' then parsePostfix (Regex.star r) rest
    else if c = '+' then parsePostfix (Regex.cat r (Regex.star r)) rest
    else if c = '?' then parsePostfix (Regex.alt r Regex.emptyR) rest
    else (r, c :: rest)

/-- The three levels of the recursive-descent regex grammar: alternation,
concatenation, and a single (possibly parenthesised) atom. -/
inductive PMode where
  | altM : PMode
  | catM : PMode
  | atomM : PMode
deriving DecidableEq, Repr

/-- The recursive-descent parser for the subset of Go regex syntax the
repository's patterns use, all three grammar levels in one function so the
recursion is structural on `fuel` (and hence kernel-computable).

* atom level: a parenthesised alternation, an escaped character (which
  always denotes itself literally), `.`, or an ordinary literal character;
  metacharacters that cannot start an atom make the parse fail;
* concatenation level: quantified atoms up to `)`/`|`/end of input,
  right-nested ending in the empty regex;
* alternation level: `|`-separated concatenations, left-biased as in Go.
-/
def parseStep : Nat → PMode → Str → Option (Regex × Str)
  | 0, _, _ => none
  | f + 1, PMode.atomM, s =>
    match s with
    | [] => none
    | c :: rest =>
      if c = '(' then
        match parseStep f PMode.altM rest with
        | some (r, ')' :: rest₁) => some (r, rest₁)
        | _ => none
      else if c = '\\' then
        match rest with
        | [] => none
        | d :: rest₁ => some (Regex.chr d, rest₁)
      else if c = '.' then some (Regex.dot, rest)
      else if c ∈ [')', '|', '*', '+', '?', '[', ']', '\x7b', '\x7d', '^', '$'] then none
      else some (Regex.chr c, rest)
  | f + 1, PMode.catM, s =>
    match s with
    | [] => some (Regex.emptyR, [])
    | c :: _ =>
      if c = ')' ∨ c = '|' then some (Regex.emptyR, s)
      else
        match parseStep f PMode.atomM s with
        | none => none
        | some (r, rest) =>
          match parsePostfix r rest with
          | (r₁, rest₁) =>
            match parseStep f PMode.catM rest₁ with
            | none => none
            | some (r₂, rest₂) => some (Regex.cat r₁ r₂, rest₂)
  | f + 1, PMode.altM, s =>
    match parseStep f PMode.catM s with
    | none => none
    | some (r, '|' :: rest) =>
      match parseStep f PMode.altM rest with
      | none => none
      | some (r₁, rest₁) => some (Regex.alt r r₁, rest₁)
    | some (r, rest) => some (r, rest)

/-- Model of `regexp.Compile` on the subset of Go regex syntax the
repository's patterns use: parse the whole pattern, failing (as `Compile`
fails on malformed patterns) when the input is not recognised. -/
def parseRegex (s : Str) : Option Regex :=
  match parseStep (2 * s.length + 2) PMode.altM s with
  | some (r, []) => some r
  | _ => none

/-! String engine (`pkg/execsanitize/execsanitize.go`, current version) -/

/-- Constant `DiscardToken`: the special replacement string (`"\x03\x03"`) that
discards the whole write on match. -/
def DiscardToken : Str := ['\x03', '\x03']

/-- A `Rule`: a compiled pattern plus a replacement function.  The state
type `σ` models the mutable environment a Go `ReplacerFunc` closure may
capture (for pure replacers, `σ := Unit`). -/
structure Rule (σ : Type) where
  pattern : Matcher
  replacer : Str → σ → Str × σ

/-- The closure `Sanitize` wraps around each rule's replacer: call the
replacer, and record in the added boolean whether any result so far
equalled `DiscardToken`. -/
def wrapRep {σ : Type} (f : Str → σ → Str × σ) : Str → σ × Bool → Str × σ × Bool :=
  fun matched p =>
    match f matched p.1 with
    | (out, st₁) => (out, st₁, p.2 || decide (out = DiscardToken))

/-- One rule application inside `Sanitizer.Sanitize`: replace all matches
with the wrapped replacer; the boolean of the result tells whether some
replacement equalled `DiscardToken`. -/
def applyRule {σ : Type} (r : Rule σ) (s : Str) (st : σ) : Str × σ × Bool :=
  goReplaceAllFunc r.pattern (wrapRep r.replacer) s (st, false)

/-- Model of `Sanitizer.Sanitize` (string version): apply the rules in order to the
input, feeding each rule's full output to the next; as soon as a rule's
application observed the discard token, return the empty string.  The
boolean of the result records whether the chunk was discarded. -/
def sanitize {σ : Type} : List (Rule σ) → Str → σ → Str × σ × Bool
  | [], s, st => (s, st, false)
  | r :: rest, s, st =>
    match applyRule r s st with
    | (_, st₁, true) => ([], st₁, true)
    | (out, st₁, false) => sanitize rest out st₁

/-- Model of `SanitizerWriter.Write` (string version): sanitize the chunk, forward
the sanitized text to the wrapped writer `wf` (whose own state has type
`W`), and return the wrapped writer's new state, the *original* chunk
length as the byte count, and the wrapped writer's error unchanged (its
byte count is dropped, as in `_, err = sw.w.Write(...)`). -/
def sanitizerWrite {σ W ε : Type} (rules : List (Rule σ)) (wf : W → Str → W × Nat × Option ε)
    (st : σ) (w : W) (p : Str) : (σ × W) × Nat × Option ε :=
  match sanitize rules p st with
  | (clean, st₁, _) =>
    match wf w clean with
    | (w₁, _, e) => ((st₁, w₁), p.length, e)

/-! Literal search helpers -/

/-- Boolean prefix test on character lists. -/
def isPrefixB : Str → Str → Bool
  | [], _ => true
  | _ :: _, [] => false
  | c :: cs, x :: xs => decide (c = x) && isPrefixB cs xs

/-- Naive literal search: the first occurrence of `pat` in `t`, as a
(position, length) pair — the specification of what a literal pattern is
supposed to match. -/
def firstOcc (pat : Str) : Str → Option (Nat × Nat)
  | [] => if isPrefixB pat [] then some (0, pat.length) else none
  | c :: rest =>
    if isPrefixB pat (c :: rest) then some (0, pat.length)
    else (firstOcc pat rest).map (fun pl => (pl.1 + 1, pl.2))

/-- Model of Go's `strings.Replace(s, pat, new, 1)`: replace the first
occurrence of `pat` in `s` with `new`, or return `s` unchanged when `pat`
does not occur. -/
def replaceFirst (s pat new : Str) : Str :=
  match firstOcc pat s with
  | none => s
  | some (p, l) => List.take p s ++ new ++ List.drop (p + l) s

/-- The regex denoting exactly a literal string: the chain of its
characters (the shape `parseRegex` produces from `quoteMeta` output). -/
def litRegex (s : Str) : Regex :=
  s.foldr (fun c r => Regex.cat (Regex.chr c) r) Regex.emptyR

/-! Byte engine (byte version of `execsanitize.go`: `Sanitizer`, `New`) -/

/-- Constant `discardToken`: the byte-engine replacement that discards the write
completely on match. -/
def discardToken : Str := "@discard".toList

/-- Constant `discardTokenEscaped`: the escaped form of `discardToken`. -/
def discardTokenEscaped : Str := "@@discard".toList

/-- The byte-engine `Sanitizer`: parallel slices of compiled patterns and
replacement byte strings. -/
structure BSanitizer where
  Patterns : List Regex
  Replacements : List Str
deriving DecidableEq, Repr

/-- Model of `Regexp.ReplaceAllLiteral`: replace every match with the
fixed replacement text. -/
def replaceAllLiteral (m : Matcher) (s repl : Str) : Str :=
  (goReplaceAllFunc m (fun _ (u : Unit) => (repl, u)) s ()).1

/-- The loop body of the byte-engine `Sanitize`, with the loop index `i`
and the mutable local `replacement` made explicit.  Per iteration: when
more than one replacement was supplied, reload `replacement` positionally;
if `replacement` is the discard token and the pattern matches, return the
empty slice; otherwise, if `replacement` is the escaped token, overwrite
`replacement` with the literal token (an assignment that — exactly as in
the Go source — persists into later iterations); then substitute all
matches.  -/
def bSanitizeLoop (repls : List Str) (llen : Nat) :
    List Regex → Nat → Str → Str → Str
  | [], _, _, inp => inp
  | p :: rest, i, replacement, inp =>
    let replacement₁ := if llen > 1 then repls.getD i [] else replacement
    if replacement₁ = discardToken ∧ rmatch (regexMatcher p) inp then []
    else
      let replacement₂ :=
        if replacement₁ = discardTokenEscaped then discardToken else replacement₁
      bSanitizeLoop repls llen rest (i + 1) replacement₂
        (replaceAllLiteral (regexMatcher p) inp replacement₂)

/-- The byte-engine `Sanitizer.Sanitize`: `replacement` starts empty, is
set once from the single replacement when exactly one was supplied, and
the pattern loop runs. -/
def bSanitize (s : BSanitizer) (inp : Str) : Str :=
  let llen := s.Replacements.length
  let replacement := if llen = 1 then s.Replacements.getD 0 [] else []
  bSanitizeLoop s.Replacements llen s.Patterns 0 replacement inp

/-- The byte-engine `SanitizerWriter.Write`: sanitize the chunk, forward
the sanitized bytes to the wrapped writer `wf`, and return the wrapped
writer's new state, the *original* chunk length, and the wrapped writer's
error unchanged. -/
def bWrite {W ε : Type} (s : BSanitizer) (wf : W → Str → W × Nat × Option ε)
    (w : W) (p : Str) : W × Nat × Option ε :=
  match wf w (bSanitize s p) with
  | (w₁, _, e) => (w₁, p.length, e)

/-- Construction errors of `New`. -/
inductive NewError where
  | mismatchedReplacements : NewError
  | patternError : Str → NewError
deriving DecidableEq, Repr

/-- Compile a list of pattern strings, failing on the first malformed one
and identifying its text (the two compilation loops of `New`). -/
def compileAll : List Str → Except NewError (List Regex)
  | [] => Except.ok []
  | p :: rest =>
    match parseRegex p with
    | none => Except.error (NewError.patternError p)
    | some r =>
      match compileAll rest with
      | Except.error e => Except.error e
      | Except.ok rs => Except.ok (r :: rs)

/-- Model of `New(patterns, plainPatterns, replacements)`: reject a
replacement count above one that differs from the total pattern count;
otherwise quote and compile the plain patterns, compile the regex
patterns (plain ones first, as in the source), and build the sanitizer. -/
def goNew (patterns plainPatterns replacements : List Str) : Except NewError BSanitizer :=
  if replacements.length > 1 ∧
      replacements.length ≠ patterns.length + plainPatterns.length then
    Except.error NewError.mismatchedReplacements
  else
    let replacementsBytes : List Str :=
      if replacements.length = 1 then [replacements.getD 0 []]
      else if replacements.length > 1 then replacements
      else []
    match compileAll (plainPatterns.map quoteMeta) with
    | Except.error e => Except.error e
    | Except.ok plains =>
      match compileAll patterns with
      | Except.error e => Except.error e
      | Except.ok regs =>
        Except.ok { Patterns := plains ++ regs, Replacements := replacementsBytes }

/-! Correlation logger (`parsedArgs.Rules` / `withLogger` in the CLI) -/

/-- The logger's observable state: the shared index counter `loggerIdx`
and the contents of the log directory, as (file name, original matched
text) pairs in creation order. -/
structure LogState where
  idx : Nat
  files : List (Str × Str)
deriving DecidableEq, Repr

/-- Decimal representation of a log index (Go's `fmt.Sprint(idx)`). -/
def natToStr (n : Nat) : Str := Nat.toDigits 10 n

/-- Model of the CLI's `withLogger` wrapper.  With no log path configured
it returns the base replacer untouched.  Otherwise, on each match: compute
the base replacement, take the current index and increment the shared
counter, best-effort write the original matched text to the file named by
the index (`pf` says whether the write succeeds; its result is discarded,
as in `_ = ioutil.WriteFile(...)`), and substitute the index's decimal
form for the first `*` of the replacement. -/
def withLogger (logPath : Bool) (pf : Str → Str → Bool) (r : Str → Str) :
    Str → LogState → Str × LogState :=
  if logPath then
    fun inp st =>
      let s := r inp
      let idx := st.idx
      let files₁ :=
        if pf (natToStr idx) inp then st.files ++ [(natToStr idx, inp)] else st.files
      (replaceFirst s ['*'] (natToStr idx), { idx := idx + 1, files := files₁ })
  else fun inp st => (r inp, st)

/-- One parsed CLI rule compiled into an engine rule: the pattern's
matcher together with the constant replacement, wrapped by `withLogger`. -/
def mkRule (logPath : Bool) (pf : Str → Str → Bool) (pat : Regex) (repl : Str) :
    Rule LogState :=
  { pattern := regexMatcher pat, replacer := withLogger logPath pf (fun _ => repl) }

/-- Model of `parsedArgs.Rules`: every parsed (pattern, replacement) pair becomes a
rule, all sharing the one logger. -/
def mkRules (logPath : Bool) (pf : Str → Str → Bool) (prules : List (Regex × Str)) :
    List (Rule LogState) :=
  prules.map (fun pr => mkRule logPath pf pr.1 pr.2)

/-- A persistence function that always succeeds. -/
def pfOk : Str → Str → Bool := fun _ _ => true

/-- The log-directory entries produced by logging the matches `ms` (in
processing order) starting at index `i`: each match is keyed by the
decimal form of its own index, indices consecutive. -/
def logEntries (i : Nat) : List Str → List (Str × Str)
  | [] => []
  | m :: ms => (natToStr i, m) :: logEntries (i + 1) ms

/-- The byte-engine treatment of one replacement value: the escaped
discard token denotes the literal token text, everything else denotes
itself. -/
def resolveEsc (r : Str) : Str :=
  if r = discardTokenEscaped then discardToken else r

/-- Positional application: pattern `i` paired with replacement `i`,
every match substituted, no discarding — the intended behaviour of the
byte engine when more than one replacement is supplied and none of them is
the discard token. -/
def positionalFrom (repls : List Str) : List Regex → Nat → Str → Str
  | [], _, inp => inp
  | p :: ps, i, inp =>
    positionalFrom repls ps (i + 1)
      (replaceAllLiteral (regexMatcher p) inp (resolveEsc (repls.getD i [])))

/-- Substituting every pattern's matches with the fixed replacement
`repl`, in order — the byte engine's behaviour in the zero-replacement
(`repl = []`) and plain single-replacement cases. -/
def allWith (repl : Str) (ps : List Regex) (inp : Str) : Str :=
  ps.foldl (fun acc p => replaceAllLiteral (regexMatcher p) acc repl) inp

/-! Concurrent logging (two writers sharing `loggerIdx`) -/

/-- One writer goroutine's logging activity: how many matches it still has
to log, and — between the two unsynchronised accesses
`idx := loggerIdx` and `loggerIdx++` — the index value it read. -/
structure LogThread where
  remaining : Nat
  pending : Option Nat
deriving DecidableEq, Repr

/-- Shared state of the race: the counter `loggerIdx` and the indices
assigned to matches so far, in completion order. -/
structure RaceState where
  counter : Nat
  assigned : List Nat
deriving DecidableEq, Repr

/-- One micro-step of a writer goroutine: either the read `idx :=
loggerIdx`, or the increment `loggerIdx++` completing the match (the read
value becomes the match's assigned index / log file name). -/
def threadStep (t : LogThread) (rs : RaceState) : LogThread × RaceState :=
  match t.pending with
  | none =>
    match t.remaining with
    | 0 => (t, rs)
    | _ + 1 => ({ t with pending := some rs.counter }, rs)
  | some k =>
    ({ remaining := t.remaining - 1, pending := none },
     { counter := rs.counter + 1, assigned := rs.assigned ++ [k] })

/-- Run an interleaving of two writer goroutines sharing the logger:
`true` schedules the first thread's next micro-step, `false` the
second's. -/
def runRace : List Bool → LogThread → LogThread → RaceState → RaceState
  | [], _, _, rs => rs
  | true :: sched, a, b, rs =>
    match threadStep a rs with
    | (a₁, rs₁) => runRace sched a₁ b rs₁
  | false :: sched, a, b, rs =>
    match threadStep b rs with
    | (b₁, rs₁) => runRace sched a b₁ rs₁

/-! Helper lemmas -/

/-- Sanitizing with a concatenated rule list is sanitizing with the
prefix and then feeding its output to the suffix, provided the prefix
triggered no discard. -/
theorem sanitize_append_aux {σ : Type} (P Q : List (Rule σ)) (s : Str) (st : σ)
    (h : (sanitize P s st).2.2 = false) :
    sanitize (P ++ Q) s st = sanitize Q (sanitize P s st).1 (sanitize P s st).2.1 := by
  induction P generalizing s st with
  | nil => simp [sanitize]
  | cons r P ih =>
    rcases hA : applyRule r s st with ⟨out, st₁, d⟩
    cases d with
    | true => simp [sanitize, hA] at h
    | false =>
      simp only [List.cons_append, sanitize, hA] at h ⊢
      exact ih out st₁ h

end ExecSanitize

namespace ExecSanitize

/-- Simulation: two stateful replacers that produce the same replacement
text and keep their states related also produce the same text and related
states through a whole `ReplaceAllStringFunc` pass. -/
theorem replaceAllFunc_sim {σ τ : Type} (R : σ → τ → Prop)
    (f : Str → σ → Str × σ) (g : Str → τ → Str × τ)
    (hf : ∀ mt a b, R a b → (f mt a).1 = (g mt b).1 ∧ R (f mt a).2 (g mt b).2) :
    ∀ (fuel : Nat) (m : Matcher) (s : Str) (a : σ) (b : τ), R a b →
      (replaceAllFunc fuel m f s a).1 = (replaceAllFunc fuel m g s b).1 ∧
      R (replaceAllFunc fuel m f s a).2 (replaceAllFunc fuel m g s b).2 := by
  intro fuel
  induction fuel with
  | zero => intro m s a b hR; exact ⟨rfl, hR⟩
  | succ n ih =>
    intro m s a b hR
    simp only [replaceAllFunc]
    cases hm : m s with
    | none => exact ⟨rfl, hR⟩
    | some pl =>
      rcases pl with ⟨p, l⟩
      have hstep := hf (List.take l (List.drop p s)) a b hR
      by_cases hl : l = 0
      · subst hl
        cases hd : List.drop p s with
        | nil =>
          rw [hd] at hstep
          simp only [List.take_zero] at hstep
          exact ⟨by simp [hd, hstep.1], by simpa [hd] using hstep.2⟩
        | cons c rest =>
          rw [hd] at hstep
          simp only [List.take_zero] at hstep
          have hrec := ih m rest (f [] a).2 (g [] b).2 hstep.2
          exact ⟨by simp [hd, hstep.1, hrec.1], by simpa [hd] using hrec.2⟩
      · have hrec := ih m (List.drop (p + l) s) (f (List.take l (List.drop p s)) a).2
          (g (List.take l (List.drop p s)) b).2 hstep.2
        exact ⟨by simp [if_neg hl, hstep.1, hrec.1], by simpa [if_neg hl] using hrec.2⟩

/-- The wrapper `Sanitize` puts around a replacer only decorates the
state with the discard flag: text output and underlying state of a rule
application equal those of the bare replacer run over all matches. -/
theorem applyRule_proj {σ : Type} (r : Rule σ) (s : Str) (st : σ) :
    (applyRule r s st).1 = (goReplaceAllFunc r.pattern r.replacer s st).1 ∧
    (applyRule r s st).2.1 = (goReplaceAllFunc r.pattern r.replacer s st).2 := by
  have h := replaceAllFunc_sim (fun a p => a = p.1) r.replacer (wrapRep r.replacer)
    (fun mt a p hab => by
      subst hab
      exact ⟨rfl, rfl⟩)
    (s.length + 1) r.pattern s st (st, false) rfl
  exact ⟨h.1.symm, h.2.symm⟩

end ExecSanitize

/-- C4.  Sequential composition: rules apply strictly left to right, the
fully substituted output of the prefix feeding the suffix — for every
split `P ++ Q` of the rule list and every input on which `P` triggers no
discard, sanitizing with `P ++ Q` equals sanitizing with `P` and then
feeding the result (with its state) through `Q`.  Consequently rule order
matters: with the literal rule a→b before the literal rule b→c, input "a"
becomes "c" (the first rule's replacement is itself matched by the later
rule), while the reversed order yields "b". -/
theorem C4_sequential_composition :
    (∀ (σ : Type) (P Q : List (ExecSanitize.Rule σ)) (s : ExecSanitize.Str) (st : σ),
      (ExecSanitize.sanitize P s st).2.2 = false →
        ExecSanitize.sanitize (P ++ Q) s st =
          ExecSanitize.sanitize Q (ExecSanitize.sanitize P s st).1
            (ExecSanitize.sanitize P s st).2.1) ∧
    (let ra : ExecSanitize.Rule Unit :=
      ⟨ExecSanitize.regexMatcher (ExecSanitize.litRegex ['a']), fun _ u => (['b'], u)⟩
     let rb : ExecSanitize.Rule Unit :=
      ⟨ExecSanitize.regexMatcher (ExecSanitize.litRegex ['b']), fun _ u => (['c'], u)⟩
     (ExecSanitize.sanitize [ra, rb] ['a'] ()).1 = ['c'] ∧
       (ExecSanitize.sanitize [rb, ra] ['a'] ()).1 = ['b'] ∧
       (ExecSanitize.sanitize [ra, rb] ['a'] ()).1 ≠
         (ExecSanitize.sanitize [rb, ra] ['a'] ()).1) := by
  refine ⟨fun σ P Q s st h => ExecSanitize.sanitize_append_aux P Q s st h, ?_, ?_, ?_⟩
  · decide
  · decide
  · decide

/-- C4 witness: the composition law applied at a concrete split — the
two-rule list above split as `[ra] ++ [rb]` on input "a". -/
theorem C4_sequential_composition_witness :
    ExecSanitize.sanitize
        [(⟨ExecSanitize.regexMatcher (ExecSanitize.litRegex ['a']),
            fun _ u => (['b'], u)⟩ : ExecSanitize.Rule Unit),
         ⟨ExecSanitize.regexMatcher (ExecSanitize.litRegex ['b']), fun _ u => (['c'], u)⟩]
        ['a'] () =
      ExecSanitize.sanitize
        [(⟨ExecSanitize.regexMatcher (ExecSanitize.litRegex ['b']),
            fun _ u => (['c'], u)⟩ : ExecSanitize.Rule Unit)]
        (ExecSanitize.sanitize
          [⟨ExecSanitize.regexMatcher (ExecSanitize.litRegex ['a']),
             fun _ u => (['b'], u)⟩] ['a'] ()).1
        (ExecSanitize.sanitize
          [⟨ExecSanitize.regexMatcher (ExecSanitize.litRegex ['a']),
             fun _ u => (['b'], u)⟩] ['a'] ()).2.1 :=
  C4_sequential_composition.1 Unit
    [⟨ExecSanitize.regexMatcher (ExecSanitize.litRegex ['a']), fun _ u => (['b'], u)⟩]
    [⟨ExecSanitize.regexMatcher (ExecSanitize.litRegex ['b']), fun _ u => (['c'], u)⟩]
    ['a'] () (by decide)

/-- C10.  A discarding rule still processes its own remaining matches:
(1) a rule application's text output and state equal those of the bare
replacer run over every non-overlapping match — the discard flag only
decorates, it never cuts the scan short; (2) hence when rule `r` discards,
the final state of the whole sanitization is the state after the bare
replacer processed all of `r`'s matches (and the rules after `r`
contribute nothing); (3) concretely, a counting replacer that returns the
discard token on pattern "a" is still invoked three times on input "aaa"
before the empty result is returned. -/
theorem C10_discarding_rule_processes_all_matches :
    (∀ (σ : Type) (r : ExecSanitize.Rule σ) (s : ExecSanitize.Str) (st : σ),
      (ExecSanitize.applyRule r s st).1 =
          (ExecSanitize.goReplaceAllFunc r.pattern r.replacer s st).1 ∧
        (ExecSanitize.applyRule r s st).2.1 =
          (ExecSanitize.goReplaceAllFunc r.pattern r.replacer s st).2) ∧
    (∀ (σ : Type) (P Q : List (ExecSanitize.Rule σ)) (r : ExecSanitize.Rule σ)
        (s : ExecSanitize.Str) (st : σ),
      (ExecSanitize.sanitize P s st).2.2 = false →
      (ExecSanitize.applyRule r (ExecSanitize.sanitize P s st).1
          (ExecSanitize.sanitize P s st).2.1).2.2 = true →
      (ExecSanitize.sanitize (P ++ r :: Q) s st).2.1 =
        (ExecSanitize.goReplaceAllFunc r.pattern r.replacer
          (ExecSanitize.sanitize P s st).1 (ExecSanitize.sanitize P s st).2.1).2) ∧
    ExecSanitize.sanitize
        [(⟨ExecSanitize.regexMatcher (ExecSanitize.litRegex ['a']),
            fun _ (n : Nat) => (ExecSanitize.DiscardToken, n + 1)⟩ :
          ExecSanitize.Rule Nat)]
        ['a', 'a', 'a'] 0 = ([], 3, true) := by
  refine ⟨fun σ r s st => ExecSanitize.applyRule_proj r s st, ?_, by decide⟩
  intro σ P Q r s st hP hr
  rw [ExecSanitize.sanitize_append_aux P (r :: Q) s st hP]
  rcases hA : ExecSanitize.applyRule r (ExecSanitize.sanitize P s st).1
      (ExecSanitize.sanitize P s st).2.1 with ⟨out, st₁, d⟩
  rw [hA] at hr
  cases d with
  | true =>
    have hproj := (ExecSanitize.applyRule_proj r (ExecSanitize.sanitize P s st).1
      (ExecSanitize.sanitize P s st).2.1).2
    rw [hA] at hproj
    simpa [ExecSanitize.sanitize, hA] using hproj
  | false => simp at hr

/-- C10 witness: the core implication at a concrete input — prefix rule
c→x (counting), then the discarding counting rule on "a", input "caa":
after the discard, the counter is 3 (one for "c", two for the two "a"
matches, the replacer having run on the match after the discarding one). -/
theorem C10_discarding_rule_processes_all_matches_witness :
    (ExecSanitize.sanitize
      [(⟨ExecSanitize.regexMatcher (ExecSanitize.litRegex ['c']),
          fun _ (n : Nat) => (['x'], n + 1)⟩ : ExecSanitize.Rule Nat),
       ⟨ExecSanitize.regexMatcher (ExecSanitize.litRegex ['a']),
          fun _ n => (ExecSanitize.DiscardToken, n + 1)⟩]
      ['c', 'a', 'a'] 0).2.1 = 3 := by
  have h := C10_discarding_rule_processes_all_matches.2.1 Nat
    [⟨ExecSanitize.regexMatcher (ExecSanitize.litRegex ['c']),
       fun _ (n : Nat) => (['x'], n + 1)⟩]
    []
    ⟨ExecSanitize.regexMatcher (ExecSanitize.litRegex ['a']),
       fun _ n => (ExecSanitize.DiscardToken, n + 1)⟩
    ['c', 'a', 'a'] 0 (by decide) (by decide)
  exact h.trans (by decide)

/-- C5.  Sanitizing Writer contract, for both engine generations: a write
of chunk `p` forwards exactly the sanitized bytes to the wrapped sink in
one call, reports `p`'s original length as the count (whatever count the
sink itself returned), and propagates the sink's error unchanged; with an
accumulating sink, consecutive writes deposit exactly the independently
sanitized chunks — no state is carried across calls. -/
theorem C5_writer_contract :
    (∀ (W ε : Type) (S : ExecSanitize.BSanitizer)
        (wf : W → ExecSanitize.Str → W × Nat × Option ε) (w : W) (p : ExecSanitize.Str),
      ExecSanitize.bWrite S wf w p =
        ((wf w (ExecSanitize.bSanitize S p)).1, p.length,
          (wf w (ExecSanitize.bSanitize S p)).2.2)) ∧
    (∀ (σ W ε : Type) (rules : List (ExecSanitize.Rule σ))
        (wf : W → ExecSanitize.Str → W × Nat × Option ε) (st : σ) (w : W)
        (p : ExecSanitize.Str),
      ExecSanitize.sanitizerWrite rules wf st w p =
        (((ExecSanitize.sanitize rules p st).2.1,
            (wf w (ExecSanitize.sanitize rules p st).1).1),
          p.length, (wf w (ExecSanitize.sanitize rules p st).1).2.2)) ∧
    (∀ (S : ExecSanitize.BSanitizer) (log : List ExecSanitize.Str)
        (nf : ExecSanitize.Str → Nat) (ef : ExecSanitize.Str → Option Unit)
        (p₁ p₂ : ExecSanitize.Str),
      (ExecSanitize.bWrite S (fun l c => (l ++ [c], nf c, ef c)) log p₁).1 =
          log ++ [ExecSanitize.bSanitize S p₁] ∧
        (ExecSanitize.bWrite S (fun l c => (l ++ [c], nf c, ef c))
            (ExecSanitize.bWrite S (fun l c => (l ++ [c], nf c, ef c)) log p₁).1 p₂).1 =
          log ++ [ExecSanitize.bSanitize S p₁, ExecSanitize.bSanitize S p₂]) := by
  refine ⟨?_, ?_, ?_⟩
  · intro W ε S wf w p
    rcases h : wf w (ExecSanitize.bSanitize S p) with ⟨w₁, n₁, e₁⟩
    simp [ExecSanitize.bWrite, h]
  · intro σ W ε rules wf st w p
    rcases hs : ExecSanitize.sanitize rules p st with ⟨clean, st₁, d⟩
    rcases h : wf w clean with ⟨w₁, n₁, e₁⟩
    simp [ExecSanitize.sanitizerWrite, hs, h]
  · intro S log nf ef p₁ p₂
    constructor
    · simp [ExecSanitize.bWrite]
    · simp [ExecSanitize.bWrite]

namespace ExecSanitize

/-- Two logger states that agree on the counter (the log-directory
contents may differ, e.g. because some writes failed). -/
def idxEq (a b : LogState) : Prop := a.idx = b.idx

/-- A logged replacer's text output and counter evolution depend only on
the counter, never on whether any persistence succeeded. -/
theorem withLogger_sim (pf₁ pf₂ : Str → Str → Bool) (r : Str → Str) :
    ∀ (mt : Str) (a b : LogState), idxEq a b →
      (withLogger true pf₁ r mt a).1 = (withLogger true pf₂ r mt b).1 ∧
        idxEq (withLogger true pf₁ r mt a).2 (withLogger true pf₂ r mt b).2 := by
  intro mt a b h
  constructor
  · simp [withLogger, idxEq] at h ⊢
    rw [h]
  · simp [withLogger, idxEq] at h ⊢
    rw [h]

/-- Running `applyRule` on two copies of the same logged rule differing only in
the persistence outcome: same output text, same discard flag, related
states. -/
theorem applyRule_sim_log (pf₁ pf₂ : Str → Str → Bool) (pat : Regex) (repl : Str) :
    ∀ (s : Str) (a b : LogState), idxEq a b →
      (applyRule (mkRule true pf₁ pat repl) s a).1 =
          (applyRule (mkRule true pf₂ pat repl) s b).1 ∧
        idxEq (applyRule (mkRule true pf₁ pat repl) s a).2.1
          (applyRule (mkRule true pf₂ pat repl) s b).2.1 ∧
        (applyRule (mkRule true pf₁ pat repl) s a).2.2 =
          (applyRule (mkRule true pf₂ pat repl) s b).2.2 := by
  intro s a b h
  have hsim := replaceAllFunc_sim
    (fun (p : LogState × Bool) (q : LogState × Bool) => idxEq p.1 q.1 ∧ p.2 = q.2)
    (wrapRep (withLogger true pf₁ (fun _ => repl)))
    (wrapRep (withLogger true pf₂ (fun _ => repl)))
    (fun mt p q hpq => by
      have hw := withLogger_sim pf₁ pf₂ (fun _ => repl) mt p.1 q.1 hpq.1
      refine ⟨?_, ?_, ?_⟩
      · simpa [wrapRep] using hw.1
      · simpa [wrapRep] using hw.2
      · simp [wrapRep, hpq.2, hw.1])
    (s.length + 1) (regexMatcher pat) s (a, false) (b, false) ⟨h, rfl⟩
  exact ⟨hsim.1, hsim.2.1, hsim.2.2⟩

/-- The whole sanitization run, on rule lists built from the same parsed
rules but different persistence outcomes: same output text, same discard
flag, same final counter. -/
theorem sanitize_sim_log (pf₁ pf₂ : Str → Str → Bool) (prules : List (Regex × Str)) :
    ∀ (inp : Str) (a b : LogState), idxEq a b →
      (sanitize (mkRules true pf₁ prules) inp a).1 =
          (sanitize (mkRules true pf₂ prules) inp b).1 ∧
        idxEq (sanitize (mkRules true pf₁ prules) inp a).2.1
          (sanitize (mkRules true pf₂ prules) inp b).2.1 ∧
        (sanitize (mkRules true pf₁ prules) inp a).2.2 =
          (sanitize (mkRules true pf₂ prules) inp b).2.2 := by
  induction prules with
  | nil => intro inp a b h; exact ⟨rfl, h, rfl⟩
  | cons pr prules ih =>
    intro inp a b h
    have hstep := applyRule_sim_log pf₁ pf₂ pr.1 pr.2 inp a b h
    rcases hA : applyRule (mkRule true pf₁ pr.1 pr.2) inp a with ⟨out₁, a₁, d₁⟩
    rcases hB : applyRule (mkRule true pf₂ pr.1 pr.2) inp b with ⟨out₂, b₁, d₂⟩
    rw [hA, hB] at hstep
    rcases hstep with ⟨hout, hrel, hflag⟩
    dsimp only at hout hrel hflag
    subst hout
    subst hflag
    cases d₁ with
    | true =>
      refine ⟨?_, ?_, ?_⟩
      · simp [mkRules, sanitize, hA, hB]
      · simpa [mkRules, sanitize, hA, hB] using hrel
      · simp [mkRules, sanitize, hA, hB]
    | false =>
      have hrec := ih out₁ a₁ b₁ hrel
      refine ⟨?_, ?_, ?_⟩
      · simpa [mkRules, sanitize, hA, hB] using hrec.1
      · simpa [mkRules, sanitize, hA, hB] using hrec.2.1
      · simpa [mkRules, sanitize, hA, hB] using hrec.2.2

end ExecSanitize

/-- C8.  Log persistence failure is swallowed: however the per-match
persistence attempts turn out (`pf` arbitrary versus `pfOk`, all
successful), the sanitized text, the discard outcome, and the counter
evolution are identical, and so is everything the Sanitizing Writer's
caller sees — the forwarded bytes, the reported count, and the returned
error. -/
theorem C8_log_persistence_failure_swallowed
    (pf : ExecSanitize.Str → ExecSanitize.Str → Bool)
    (prules : List (ExecSanitize.Regex × ExecSanitize.Str))
    (inp : ExecSanitize.Str) (st : ExecSanitize.LogState) :
    ((ExecSanitize.sanitize (ExecSanitize.mkRules true pf prules) inp st).1 =
        (ExecSanitize.sanitize (ExecSanitize.mkRules true ExecSanitize.pfOk prules) inp st).1 ∧
      (ExecSanitize.sanitize (ExecSanitize.mkRules true pf prules) inp st).2.1.idx =
        (ExecSanitize.sanitize
          (ExecSanitize.mkRules true ExecSanitize.pfOk prules) inp st).2.1.idx ∧
      (ExecSanitize.sanitize (ExecSanitize.mkRules true pf prules) inp st).2.2 =
        (ExecSanitize.sanitize
          (ExecSanitize.mkRules true ExecSanitize.pfOk prules) inp st).2.2) ∧
    (∀ (W ε : Type) (wf : W → ExecSanitize.Str → W × Nat × Option ε) (w : W),
      (ExecSanitize.sanitizerWrite (ExecSanitize.mkRules true pf prules) wf st w inp).1.2 =
          (ExecSanitize.sanitizerWrite
            (ExecSanitize.mkRules true ExecSanitize.pfOk prules) wf st w inp).1.2 ∧
        (ExecSanitize.sanitizerWrite (ExecSanitize.mkRules true pf prules) wf st w inp).2 =
          (ExecSanitize.sanitizerWrite
            (ExecSanitize.mkRules true ExecSanitize.pfOk prules) wf st w inp).2) := by
  have h := ExecSanitize.sanitize_sim_log pf ExecSanitize.pfOk prules inp st st rfl
  refine ⟨⟨h.1, h.2.1, h.2.2⟩, ?_⟩
  intro W ε wf w
  rcases hs₁ : ExecSanitize.sanitize (ExecSanitize.mkRules true pf prules) inp st
    with ⟨clean₁, st₁, d₁⟩
  rcases hs₂ : ExecSanitize.sanitize
      (ExecSanitize.mkRules true ExecSanitize.pfOk prules) inp st with ⟨clean₂, st₂, d₂⟩
  have hclean : clean₁ = clean₂ := by
    have := h.1; rw [hs₁, hs₂] at this; exact this
  subst hclean
  rcases hw : wf w clean₁ with ⟨w₁, n₁, e₁⟩
  simp [ExecSanitize.sanitizerWrite, hs₁, hs₂, hw]

/-- C8 witness: the theorem applied with an always-failing persistence
function, one literal rule c→"(*)" and input "c": output text, counter
and writer-visible results coincide with the all-success run. -/
theorem C8_log_persistence_failure_swallowed_witness :
    (ExecSanitize.sanitize
        (ExecSanitize.mkRules true (fun _ _ => false)
          [(ExecSanitize.Regex.chr 'c', ['(', '*', ')'])]) ['c'] ⟨0, []⟩).1 =
      (ExecSanitize.sanitize
        (ExecSanitize.mkRules true ExecSanitize.pfOk
          [(ExecSanitize.Regex.chr 'c', ['(', '*', ')'])]) ['c'] ⟨0, []⟩).1 :=
  (C8_log_persistence_failure_swallowed (fun _ _ => false)
    [(ExecSanitize.Regex.chr 'c', ['(', '*', ')'])] ['c'] ⟨0, []⟩).1.1

namespace ExecSanitize

/-- A character that does not occur in `s` has no occurrence found. -/
theorem firstOcc_single_none (c : Char) (s : Str) (h : c ∉ s) : firstOcc [c] s = none := by
  induction s with
  | nil => simp [firstOcc, isPrefixB]
  | cons x xs ih =>
    simp only [List.mem_cons, not_or] at h
    have hx : ¬ (c = x) := h.1
    simp [firstOcc, isPrefixB, hx, ih h.2]

/-- Splitting a run of consecutive log entries. -/
theorem logEntries_append (i : Nat) (ms₁ ms₂ : List Str) :
    logEntries i (ms₁ ++ ms₂) = logEntries i ms₁ ++ logEntries (i + ms₁.length) ms₂ := by
  induction ms₁ generalizing i with
  | nil => simp [logEntries]
  | cons m ms ih =>
    simp [logEntries, ih (i + 1)]
    have : i + 1 + ms.length = i + (ms.length + 1) := by omega
    rw [this]

/-- A full `ReplaceAllStringFunc` pass with the always-persisting logged
replacer: some list `ms` of matched texts is logged, the counter advances
by exactly one per logged match, and the log directory gains exactly the
entries keying each match by its own index, consecutively. -/
theorem replaceAll_logged (r : Str → Str) :
    ∀ (fuel : Nat) (m : Matcher) (s : Str) (i : Nat) (fs : List (Str × Str)),
      ∃ ms : List Str,
        (replaceAllFunc fuel m (withLogger true pfOk r) s ⟨i, fs⟩).2 =
          ⟨i + ms.length, fs ++ logEntries i ms⟩ := by
  intro fuel
  induction fuel with
  | zero => intro m s i fs; exact ⟨[], by simp [replaceAllFunc, logEntries]⟩
  | succ n ih =>
    intro m s i fs
    simp only [replaceAllFunc]
    cases hm : m s with
    | none => exact ⟨[], by simp [logEntries]⟩
    | some pl =>
      rcases pl with ⟨p, l⟩
      have hstep : withLogger true pfOk r (List.take l (List.drop p s)) ⟨i, fs⟩ =
          (replaceFirst (r (List.take l (List.drop p s))) ['*'] (natToStr i),
            ⟨i + 1, fs ++ [(natToStr i, List.take l (List.drop p s))]⟩) := by
        simp [withLogger, pfOk]
      by_cases hl : l = 0
      · subst hl
        simp only [List.take_zero] at hstep
        cases hd : List.drop p s with
        | nil =>
          refine ⟨[[]], ?_⟩
          simp [hd, hstep, logEntries]
        | cons c rest =>
          rcases ih m rest (i + 1) (fs ++ [(natToStr i, [])]) with ⟨ms, hms⟩
          refine ⟨[] :: ms, ?_⟩
          simp [hd, hstep, hms, logEntries]
          try omega
      · rcases ih m (List.drop (p + l) s) (i + 1)
            (fs ++ [(natToStr i, List.take l (List.drop p s))]) with ⟨ms, hms⟩
        refine ⟨List.take l (List.drop p s) :: ms, ?_⟩
        simp [if_neg hl, hstep, hms, logEntries]
        try omega

/-- The counter/log invariant lifted through a whole sanitization run over
logged rules: some list of matches is logged, one index per match,
consecutive from the starting counter, each entry holding the original
matched text under its index's decimal key. -/
theorem sanitize_logged (prules : List (Regex × Str)) :
    ∀ (inp : Str) (i : Nat) (fs : List (Str × Str)),
      ∃ ms : List Str,
        (sanitize (mkRules true pfOk prules) inp ⟨i, fs⟩).2.1 =
          ⟨i + ms.length, fs ++ logEntries i ms⟩ := by
  induction prules with
  | nil => intro inp i fs; exact ⟨[], by simp [mkRules, sanitize, logEntries]⟩
  | cons pr prules ih =>
    intro inp i fs
    have hproj := (applyRule_proj (mkRule true pfOk pr.1 pr.2) inp ⟨i, fs⟩).2
    rcases replaceAll_logged (fun _ => pr.2) (inp.length + 1)
        (regexMatcher pr.1) inp i fs with ⟨ms₁, hms₁⟩
    rcases hA : applyRule (mkRule true pfOk pr.1 pr.2) inp ⟨i, fs⟩ with ⟨out, st₁, d⟩
    rw [hA] at hproj
    have hst₁ : st₁ = ⟨i + ms₁.length, fs ++ logEntries i ms₁⟩ := hproj.trans hms₁
    have hlist : mkRules true pfOk (pr :: prules) =
        mkRule true pfOk pr.1 pr.2 :: mkRules true pfOk prules := by
      simp [mkRules]
    cases d with
    | true =>
      refine ⟨ms₁, ?_⟩
      rw [hlist]
      simp only [sanitize, hA]
      exact hst₁
    | false =>
      subst hst₁
      rcases ih out (i + ms₁.length) (fs ++ logEntries i ms₁) with ⟨ms₂, hms₂⟩
      refine ⟨ms₁ ++ ms₂, ?_⟩
      rw [hlist]
      simp only [sanitize, hA]
      rw [hms₂, logEntries_append]
      simp [List.length_append, List.append_assoc]
      try omega

end ExecSanitize

/-- C3.  Correlation logging (log destination configured, persistence
succeeding): (1) each invocation of a logged replacer consumes exactly the
current index — the counter advances by one, the original matched text is
persisted under the index's decimal-string key, and the index's decimal
form is substituted for the first `*` of the base replacement; (2) a
replacement without `*` is returned unchanged (the index still consumed
and logged, by (1)); (3) through any whole sanitization run the counter
grows by exactly the number of logged matches, all rules sharing the one
counter, each match persisted under its own consecutive index; (4)
concretely, the rule regex "(Hi|Bye)" → "<greeting-*>" on "Hi, Bye."
yields "<greeting-0>, <greeting-1>." with log entries "0" ↦ "Hi" and
"1" ↦ "Bye". -/
theorem C3_correlation_logging :
    (∀ (pf : ExecSanitize.Str → ExecSanitize.Str → Bool) (r : ExecSanitize.Str →
        ExecSanitize.Str) (inp : ExecSanitize.Str) (st : ExecSanitize.LogState),
      ExecSanitize.withLogger true ExecSanitize.pfOk r inp st =
        (ExecSanitize.replaceFirst (r inp) ['*'] (ExecSanitize.natToStr st.idx),
          ⟨st.idx + 1, st.files ++ [(ExecSanitize.natToStr st.idx, inp)]⟩) ∧
      (ExecSanitize.withLogger true pf r inp st).2.idx = st.idx + 1) ∧
    (∀ (s t : ExecSanitize.Str), '*' ∉ s → ExecSanitize.replaceFirst s ['*'] t = s) ∧
    (∀ (prules : List (ExecSanitize.Regex × ExecSanitize.Str)) (inp : ExecSanitize.Str)
        (i : Nat) (fs : List (ExecSanitize.Str × ExecSanitize.Str)),
      ∃ ms : List ExecSanitize.Str,
        (ExecSanitize.sanitize (ExecSanitize.mkRules true ExecSanitize.pfOk prules)
            inp ⟨i, fs⟩).2.1 =
          ⟨i + ms.length, fs ++ ExecSanitize.logEntries i ms⟩) ∧
    (ExecSanitize.parseRegex ("(Hi|Bye)".toList)).map
        (fun rg =>
          ExecSanitize.sanitize
            [ExecSanitize.mkRule true ExecSanitize.pfOk rg ("<greeting-*>".toList)]
            ("Hi, Bye.".toList) ⟨0, []⟩) =
      some ("<greeting-0>, <greeting-1>.".toList,
        ⟨2, [("0".toList, "Hi".toList), ("1".toList, "Bye".toList)]⟩, false) := by
  refine ⟨?_, ?_, fun prules => ExecSanitize.sanitize_logged prules, by decide⟩
  · intro pf r inp st
    constructor
    · simp [ExecSanitize.withLogger, ExecSanitize.pfOk]
    · simp [ExecSanitize.withLogger]
  · intro s t h
    simp [ExecSanitize.replaceFirst, ExecSanitize.firstOcc_single_none '*' s h]

/-- C3 witness: the no-placeholder clause at a concrete replacement —
"id" contains no `*`, so the logged replacer returns it unchanged while
still consuming index 0 and logging the match. -/
theorem C3_correlation_logging_witness :
    ('*' ∉ ("id".toList) → ExecSanitize.replaceFirst ("id".toList) ['*'] ['0'] =
        "id".toList) ∧
      ExecSanitize.replaceFirst ("id".toList) ['*'] ['0'] = "id".toList :=
  ⟨fun h => C3_correlation_logging.2.1 ("id".toList) ['0'] h,
   C3_correlation_logging.2.1 ("id".toList) ['0'] (by decide)⟩

/-- C1.  Discard short-circuit: if, after the rules of `P` ran without
discarding, rule `r`'s application observes the discard token on some
match, then sanitizing with `P ++ r :: Q` returns the empty chunk with the
discarded flag set, the final state is exactly the state after `P` and
`r` (so the rules of `Q` never execute, whatever they are), and the state
accumulated by `P` is part of that final state (the earlier rules did
run). -/
theorem C1_discard_short_circuit (σ : Type) (P Q : List (ExecSanitize.Rule σ))
    (r : ExecSanitize.Rule σ) (s : ExecSanitize.Str) (st : σ)
    (hP : (ExecSanitize.sanitize P s st).2.2 = false)
    (hr : (ExecSanitize.applyRule r (ExecSanitize.sanitize P s st).1
            (ExecSanitize.sanitize P s st).2.1).2.2 = true) :
    ExecSanitize.sanitize (P ++ r :: Q) s st =
      ([], (ExecSanitize.applyRule r (ExecSanitize.sanitize P s st).1
              (ExecSanitize.sanitize P s st).2.1).2.1, true) := by
  rw [ExecSanitize.sanitize_append_aux P (r :: Q) s st hP]
  rcases hA : ExecSanitize.applyRule r (ExecSanitize.sanitize P s st).1
      (ExecSanitize.sanitize P s st).2.1 with ⟨out, st₁, d⟩
  rw [hA] at hr
  cases d with
  | true => simp [ExecSanitize.sanitize, hA]
  | false => simp at hr

/-- C1 witness: one non-discarding counting rule (c→x) runs before a
discarding rule (a→discard) on input "ca"; the result is the empty chunk,
the discard flag, and the state `2` showing both rules' replacers ran. -/
theorem C1_discard_short_circuit_witness :
    (ExecSanitize.sanitize [(⟨ExecSanitize.regexMatcher (ExecSanitize.litRegex ['c']),
          fun _ (n : Nat) => (['x'], n + 1)⟩ : ExecSanitize.Rule Nat)] ['c', 'a'] 0).2.2 =
        false ∧
      ExecSanitize.sanitize
        [(⟨ExecSanitize.regexMatcher (ExecSanitize.litRegex ['c']),
            fun _ (n : Nat) => (['x'], n + 1)⟩ : ExecSanitize.Rule Nat),
         ⟨ExecSanitize.regexMatcher (ExecSanitize.litRegex ['a']),
            fun _ n => (ExecSanitize.DiscardToken, n + 1)⟩]
        ['c', 'a'] 0 = ([], 2, true) := by
  constructor
  · decide
  · have h := C1_discard_short_circuit Nat
      [⟨ExecSanitize.regexMatcher (ExecSanitize.litRegex ['c']),
         fun _ (n : Nat) => (['x'], n + 1)⟩]
      []
      ⟨ExecSanitize.regexMatcher (ExecSanitize.litRegex ['a']),
         fun _ n => (ExecSanitize.DiscardToken, n + 1)⟩
      ['c', 'a'] 0 (by decide) (by decide)
    refine h.trans ?_
    decide

/-- C9.  Concurrent logging is NOT safe in the code: the shared counter
is read and incremented without synchronisation (`idx := loggerIdx;
loggerIdx++` in `withLogger`, no lock), so under the interleaving
read/read/increment/increment of two writers that each log one match,
both matches are assigned index 0 — duplicate index, colliding log key —
whereas the non-interleaved schedule assigns 0 and 1.  This theorem
evaluates the two-thread micro-step model at that interleaving. -/
theorem C9_concurrent_logging_race :
    ExecSanitize.runRace [true, false, true, false] ⟨1, none⟩ ⟨1, none⟩ ⟨0, []⟩ =
        { counter := 2, assigned := [0, 0] } ∧
      ¬ (ExecSanitize.runRace [true, false, true, false]
          ⟨1, none⟩ ⟨1, none⟩ ⟨0, []⟩).assigned.Nodup ∧
      ExecSanitize.runRace [true, true, false, false] ⟨1, none⟩ ⟨1, none⟩ ⟨0, []⟩ =
        { counter := 2, assigned := [0, 1] } := by
  refine ⟨by decide, by decide, by decide⟩

namespace ExecSanitize

/-- In a byte sanitizer with no replacements, every iteration keeps the
empty replacement, never discards, and deletes all matches of each
pattern in turn. -/
theorem bLoop_empty : ∀ (ps : List Regex) (i : Nat) (inp : Str),
    bSanitizeLoop [] 0 ps i [] inp = allWith [] ps inp := by
  intro ps
  induction ps with
  | nil => intro i inp; simp [bSanitizeLoop, allWith]
  | cons p ps ih =>
    intro i inp
    have h₀ : ¬ ((0 : Nat) > 1) := by norm_num
    have h₁ : ¬ (([] : Str) = discardToken ∧ rmatch (regexMatcher p) inp = true) := by
      rintro ⟨h, -⟩
      exact absurd h (by decide)
    have h₂ : ¬ (([] : Str) = discardTokenEscaped) := by decide
    simp only [bSanitizeLoop, allWith, List.foldl_cons, if_neg h₀, if_neg h₁, if_neg h₂]
    exact ih (i + 1) (replaceAllLiteral (regexMatcher p) inp [])

/-- In a byte sanitizer with exactly one replacement that is neither the
discard token nor its escaped form, every iteration uses that
replacement, never discards, and substitutes all matches of each pattern
in turn. -/
theorem bLoop_single (r : Str) (h₁ : r ≠ discardToken) (h₂ : r ≠ discardTokenEscaped) :
    ∀ (ps : List Regex) (i : Nat) (inp : Str),
      bSanitizeLoop [r] 1 ps i r inp = allWith r ps inp := by
  intro ps
  induction ps with
  | nil => intro i inp; simp [bSanitizeLoop, allWith]
  | cons p ps ih =>
    intro i inp
    have h₀ : ¬ ((1 : Nat) > 1) := by norm_num
    have hcond : ¬ (r = discardToken ∧ rmatch (regexMatcher p) inp = true) := by
      rintro ⟨h, -⟩
      exact h₁ h
    simp only [bSanitizeLoop, allWith, List.foldl_cons, if_neg h₀, if_neg hcond, if_neg h₂]
    exact ih (i + 1) (replaceAllLiteral (regexMatcher p) inp r)

/-- Compilation (`compileAll`) preserves the pattern count. -/
theorem compileAll_length : ∀ (l : List Str) (rs : List Regex),
    compileAll l = Except.ok rs → rs.length = l.length := by
  intro l
  induction l with
  | nil => intro rs h; simp [compileAll] at h; simp [← h]
  | cons p l ih =>
    intro rs h
    simp only [compileAll] at h
    cases hp : parseRegex p with
    | none => rw [hp] at h; exact absurd h (by simp)
    | some r =>
      rw [hp] at h
      cases hc : compileAll l with
      | error e => rw [hc] at h; exact absurd h (by simp)
      | ok rs₁ =>
        rw [hc] at h
        cases h
        simp [ih rs₁ hc]

end ExecSanitize

/-- C6.  Replacement-count policy of `New`: (a) zero replacements — the
sanitizer is built with no replacement texts and every rule deletes its
matches (substitutes the empty text); (b) exactly one replacement — that
single text is kept and (when it is not the discard token or its escaped
form) used for every rule; (c) more than one replacement with a count
different from the total pattern count — construction fails with the
configuration error and no sanitizer is produced; (d) more than one
replacement accepted — the count equals the pattern count and replacement
`i` pairs positionally with compiled pattern `i`. -/
theorem C6_replacement_count_policy :
    (∀ (pats plains : List ExecSanitize.Str) (S : ExecSanitize.BSanitizer),
      ExecSanitize.goNew pats plains [] = Except.ok S →
        S.Replacements = [] ∧
          ∀ inp, ExecSanitize.bSanitize S inp = ExecSanitize.allWith [] S.Patterns inp) ∧
    (∀ (pats plains : List ExecSanitize.Str) (r : ExecSanitize.Str)
        (S : ExecSanitize.BSanitizer),
      ExecSanitize.goNew pats plains [r] = Except.ok S →
        S.Replacements = [r] ∧
          (r ≠ ExecSanitize.discardToken → r ≠ ExecSanitize.discardTokenEscaped →
            ∀ inp, ExecSanitize.bSanitize S inp = ExecSanitize.allWith r S.Patterns inp)) ∧
    (∀ (pats plains repls : List ExecSanitize.Str),
      repls.length > 1 → repls.length ≠ pats.length + plains.length →
        ExecSanitize.goNew pats plains repls =
          Except.error ExecSanitize.NewError.mismatchedReplacements) ∧
    (∀ (pats plains repls : List ExecSanitize.Str) (S : ExecSanitize.BSanitizer),
      repls.length > 1 → ExecSanitize.goNew pats plains repls = Except.ok S →
        S.Replacements = repls ∧ S.Patterns.length = repls.length) := by
  refine ⟨?_, ?_, ?_, ?_⟩
  · intro pats plains S h
    simp only [ExecSanitize.goNew, List.length_nil] at h
    rw [if_neg (by rintro ⟨hh, -⟩; exact absurd hh (by norm_num))] at h
    simp only [show ¬ ((0 : Nat) = 1) by norm_num, if_false,
      show ¬ ((0 : Nat) > 1) by norm_num] at h
    cases hc₁ : ExecSanitize.compileAll (plains.map ExecSanitize.quoteMeta) with
    | error e => rw [hc₁] at h; exact absurd h (by simp)
    | ok plainsR =>
      rw [hc₁] at h
      cases hc₂ : ExecSanitize.compileAll pats with
      | error e => rw [hc₂] at h; exact absurd h (by simp)
      | ok regsR =>
        rw [hc₂] at h
        cases h
        refine ⟨rfl, fun inp => ?_⟩
        simp only [ExecSanitize.bSanitize, List.length_nil,
          show ¬ ((0 : Nat) = 1) by norm_num, if_false]
        exact ExecSanitize.bLoop_empty (plainsR ++ regsR) 0 inp
  · intro pats plains r S h
    simp only [ExecSanitize.goNew, List.length_singleton] at h
    rw [if_neg (by rintro ⟨hh, -⟩; exact absurd hh (by norm_num))] at h
    simp only [show ((1 : Nat) = 1) by rfl, if_true, List.getD] at h
    cases hc₁ : ExecSanitize.compileAll (plains.map ExecSanitize.quoteMeta) with
    | error e => rw [hc₁] at h; exact absurd h (by simp)
    | ok plainsR =>
      rw [hc₁] at h
      cases hc₂ : ExecSanitize.compileAll pats with
      | error e => rw [hc₂] at h; exact absurd h (by simp)
      | ok regsR =>
        rw [hc₂] at h
        cases h
        refine ⟨by simp, fun h₁ h₂ inp => ?_⟩
        simp only [ExecSanitize.bSanitize, List.length_singleton,
          show ((1 : Nat) = 1) by rfl, if_true, List.getD]
        exact ExecSanitize.bLoop_single r h₁ h₂ (plainsR ++ regsR) 0 inp
  · intro pats plains repls h₁ h₂
    simp only [ExecSanitize.goNew]
    rw [if_pos ⟨h₁, h₂⟩]
  · intro pats plains repls S h₁ h
    simp only [ExecSanitize.goNew] at h
    by_cases hcond : repls.length > 1 ∧ repls.length ≠ pats.length + plains.length
    · rw [if_pos hcond] at h; exact absurd h (by simp)
    · rw [if_neg hcond] at h
      have hlen : repls.length = pats.length + plains.length := by
        rcases not_and_or.mp hcond with hbad | heq
        · exact absurd h₁ hbad
        · exact not_not.mp heq
      have hne1 : ¬ (repls.length = 1) := by omega
      simp only [hne1, if_false, if_pos h₁] at h
      cases hc₁ : ExecSanitize.compileAll (plains.map ExecSanitize.quoteMeta) with
      | error e => rw [hc₁] at h; exact absurd h (by simp)
      | ok plainsR =>
        rw [hc₁] at h
        cases hc₂ : ExecSanitize.compileAll pats with
        | error e => rw [hc₂] at h; exact absurd h (by simp)
        | ok regsR =>
          rw [hc₂] at h
          cases h
          refine ⟨rfl, ?_⟩
          have l₁ := ExecSanitize.compileAll_length _ _ hc₁
          have l₂ := ExecSanitize.compileAll_length _ _ hc₂
          simp only [List.length_append, List.length_map] at l₁ l₂ ⊢
          omega

/-- C6 witness: the policy at concrete inputs — two replacements for one
pattern is the configuration error; zero replacements build a sanitizer
whose single rule deletes its matches ("ab" → "b"). -/
theorem C6_replacement_count_policy_witness :
    ExecSanitize.goNew [['a']] [] [['x'], ['y']] =
        Except.error ExecSanitize.NewError.mismatchedReplacements ∧
      ExecSanitize.bSanitize
          { Patterns := [ExecSanitize.Regex.cat (ExecSanitize.Regex.chr 'a')
              ExecSanitize.Regex.emptyR],
            Replacements := [] } ['a', 'b'] =
        ExecSanitize.allWith []
          [ExecSanitize.Regex.cat (ExecSanitize.Regex.chr 'a') ExecSanitize.Regex.emptyR]
          ['a', 'b'] :=
  ⟨C6_replacement_count_policy.2.2.1 [['a']] [] [['x'], ['y']] (by norm_num) (by norm_num),
   (C6_replacement_count_policy.1 [['a']] []
      { Patterns := [ExecSanitize.Regex.cat (ExecSanitize.Regex.chr 'a')
          ExecSanitize.Regex.emptyR],
        Replacements := [] } (by rfl)).2 ['a', 'b']⟩

namespace ExecSanitize

/-- When more than one replacement is supplied, every iteration reloads
the replacement positionally, so nothing leaks between iterations: as
long as no replacement equals the discard token, the loop is the
positional fold (escaped tokens resolved to the literal token), and never
discards. -/
theorem bLoop_positional (repls : List Str) (hl : repls.length > 1)
    (hnd : ∀ r ∈ repls, r ≠ discardToken) :
    ∀ (ps : List Regex) (i : Nat) (repl inp : Str),
      bSanitizeLoop repls repls.length ps i repl inp = positionalFrom repls ps i inp := by
  have hg : ∀ j, repls.getD j [] ≠ discardToken := by
    intro j
    rw [List.getD_eq_getElem?_getD]
    rcases h : repls[j]? with _ | r
    · simp only [Option.getD_none]
      decide
    · simp only [Option.getD_some]
      exact hnd r (List.getElem?_mem h)
  intro ps
  induction ps with
  | nil => intro i repl inp; simp [bSanitizeLoop, positionalFrom]
  | cons p ps ih =>
    intro i repl inp
    have hcond : ¬ (repls.getD i [] = discardToken ∧ rmatch (regexMatcher p) inp = true) := by
      rintro ⟨h, -⟩
      exact hg i h
    simp only [bSanitizeLoop, positionalFrom, if_pos hl, if_neg hcond]
    exact ih (i + 1) _ _

end ExecSanitize

/-- C2 counterexample: with patterns "a" and "b" and the single shared
replacement "@@discard", the claim predicts each match replaced by the
literal token ("@discard@discard") and no discard; the code instead
discards the whole chunk "ab" (the escape rewrite of the shared mutable
`replacement` variable leaks into the second iteration, where it equals
the discard token and pattern "b" matches). -/
theorem C2_escaped_discard_counterexample :
    (ExecSanitize.goNew [['a'], ['b']] [] [ExecSanitize.discardTokenEscaped]).toOption.map
        (fun S => ExecSanitize.bSanitize S ['a', 'b']) = some [] ∧
      ([] : ExecSanitize.Str) ≠
        ExecSanitize.discardToken ++ ExecSanitize.discardToken := by
  constructor
  · decide
  · decide

/-- C2 (amended).  A replacement spec equal to the escaped discard token
makes the rule emit the literal token text and never discard *when the
replacements are positional (count > 1, none equal to the discard token)
or when the sanitizer has a single pattern*: (1) in positional mode every
iteration reloads its own replacement, escaped tokens resolve to the
literal token, and the loop is a pure fold with no discard; (2) resolving
the escaped form yields exactly the literal token text; (3) a
single-pattern sanitizer with the shared replacement "@@discard" replaces
every match with the literal "@discard"; (4) the spec's example: rule
("secret", "@@discard") on "some secret" yields "some @discard".  With a
single shared replacement and several patterns this fails — after the
first pattern the mutated replacement equals the discard token, and a
later matching pattern discards the chunk (see the counterexample). -/
theorem C2_escaped_discard_amended :
    (∀ (repls : List ExecSanitize.Str), repls.length > 1 →
      (∀ r ∈ repls, r ≠ ExecSanitize.discardToken) →
      ∀ (ps : List ExecSanitize.Regex) (inp : ExecSanitize.Str),
        ExecSanitize.bSanitize ⟨ps, repls⟩ inp =
          ExecSanitize.positionalFrom repls ps 0 inp) ∧
    ExecSanitize.resolveEsc ExecSanitize.discardTokenEscaped = ExecSanitize.discardToken ∧
    (∀ (p : ExecSanitize.Regex) (inp : ExecSanitize.Str),
      ExecSanitize.bSanitize ⟨[p], [ExecSanitize.discardTokenEscaped]⟩ inp =
        ExecSanitize.replaceAllLiteral (ExecSanitize.regexMatcher p) inp
          ExecSanitize.discardToken) ∧
    (ExecSanitize.goNew [] ["secret".toList] ["@@discard".toList]).toOption.map
        (fun S => ExecSanitize.bSanitize S ("some secret".toList)) =
      some ("some @discard".toList) := by
  refine ⟨?_, by decide, ?_, by decide⟩
  · intro repls hl hnd ps inp
    have hne1 : ¬ (repls.length = 1) := by omega
    simp only [ExecSanitize.bSanitize, hne1, if_false]
    exact ExecSanitize.bLoop_positional repls hl hnd ps 0 _ inp
  · intro p inp
    have hc₁ : ¬ (ExecSanitize.discardTokenEscaped = ExecSanitize.discardToken ∧
        ExecSanitize.rmatch (ExecSanitize.regexMatcher p) inp = true) := by
      rintro ⟨h, -⟩
      exact absurd h (by decide)
    simp only [ExecSanitize.bSanitize, List.length_singleton, if_pos rfl, List.getD,
      List.get?_cons_zero, Option.getD_some, if_true, ExecSanitize.bSanitizeLoop,
      show ¬ ((1 : Nat) > 1) by norm_num, if_false, if_neg hc₁]

/-- C2 amended witness: positional replacements ["x", "@@discard"] for
patterns "a", "b" on input "ab" — the escaped rule emits the literal
token, nothing is discarded: the result is "x@discard". -/
theorem C2_escaped_discard_amended_witness :
    ExecSanitize.bSanitize
        ⟨[ExecSanitize.Regex.chr 'a', ExecSanitize.Regex.chr 'b'],
          [['x'], ExecSanitize.discardTokenEscaped]⟩ ['a', 'b'] =
      "x@discard".toList := by
  have h := C2_escaped_discard_amended.1 [['x'], ExecSanitize.discardTokenEscaped]
    (by norm_num) (by decide) [ExecSanitize.Regex.chr 'a', ExecSanitize.Regex.chr 'b']
    ['a', 'b']
  exact h.trans (by decide)

namespace ExecSanitize

/-- Unfolding `quoteMeta` one character at a time. -/
theorem quoteMeta_cons (c : Char) (cs : Str) :
    quoteMeta (c :: cs) = (if c ∈ specialChars then ['\\', c] else [c]) ++ quoteMeta cs := by
  simp [quoteMeta]

/-- Quoting never shortens a string. -/
theorem length_le_quoteMeta (s : Str) : s.length ≤ (quoteMeta s).length := by
  induction s with
  | nil => simp [quoteMeta]
  | cons c cs ih =>
    rw [quoteMeta_cons]
    by_cases hc : c ∈ specialChars
    · rw [if_pos hc]; simp; omega
    · rw [if_neg hc]; simp; omega

/-- Quoted output never starts with a postfix quantifier, so no
quantifier is consumed after an atom of a quoted literal. -/
theorem parsePostfix_quoteMeta (r : Regex) (cs : Str) :
    parsePostfix r (quoteMeta cs) = (r, quoteMeta cs) := by
  cases cs with
  | nil => simp [quoteMeta, parsePostfix]
  | cons d ds =>
    rw [quoteMeta_cons]
    by_cases hd : d ∈ specialChars
    · rw [if_pos hd]
      simp [parsePostfix]
    · rw [if_neg hd]
      have h1 : ¬ (d = '*') := fun h => hd (by rw [h]; decide)
      have h2 : ¬ (d = '+') := fun h => hd (by rw [h]; decide)
      have h3 : ¬ (d = '?') := fun h => hd (by rw [h]; decide)
      simp [parsePostfix, h1, h2, h3]

/-- The regex of a literal string, unfolded. -/
theorem litRegex_cons (c : Char) (cs : Str) :
    litRegex (c :: cs) = Regex.cat (Regex.chr c) (litRegex cs) := rfl

/-- One parsing step at the concatenation level on a non-stop character:
one atom, its quantifiers, then the rest of the concatenation. -/
theorem parseStep_catM_cons (f : Nat) (c : Char) (rest : Str)
    (hstop : ¬ (c = ')' ∨ c = '|')) :
    parseStep (f + 1) PMode.catM (c :: rest) =
      match parseStep f PMode.atomM (c :: rest) with
      | none => none
      | some (r, rest₁) =>
        match parsePostfix r rest₁ with
        | (r₁, rest₂) =>
          match parseStep f PMode.catM rest₂ with
          | none => none
          | some (r₂, rest₃) => some (Regex.cat r₁ r₂, rest₃) := by
  simp only [parseStep, if_neg hstop]

/-- An escaped character parses as that literal character. -/
theorem parseStep_atomM_esc (f : Nat) (d : Char) (rest : Str) :
    parseStep (f + 1) PMode.atomM ('\\' :: d :: rest) = some (Regex.chr d, rest) := by
  simp [parseStep]

/-- An ordinary (non-metacharacter) character parses as itself. -/
theorem parseStep_atomM_lit (f : Nat) (c : Char) (rest : Str)
    (h2 : ¬ c = '(') (h3 : ¬ c = '\\') (h4 : ¬ c = '.')
    (h5 : c ∉ [')', '|', '*', '+', '?', '[', ']', '\x7b', '\x7d', '^', '$']) :
    parseStep (f + 1) PMode.atomM (c :: rest) = some (Regex.chr c, rest) := by
  simp [parseStep, h2, h3, h4, h5]

/-- Parsing the quoted form of any literal string yields exactly the
chain of its characters: every metacharacter was escaped, and an escaped
character always parses to itself. -/
theorem parseCat_quoteMeta : ∀ (s : Str) (f : Nat), s.length + 1 ≤ f →
    parseStep f PMode.catM (quoteMeta s) = some (litRegex s, []) := by
  intro s
  induction s with
  | nil =>
    intro f hf
    cases f with
    | zero => omega
    | succ f' => simp [quoteMeta, parseStep, litRegex]
  | cons c cs ih =>
    intro f hf
    cases f with
    | zero => omega
    | succ f' =>
      cases f' with
      | zero => simp at hf
      | succ f'' =>
        have hf' : cs.length + 1 ≤ f'' + 1 := by simp at hf; omega
        have hcat := ih (f'' + 1) hf'
        rw [quoteMeta_cons, litRegex_cons]
        by_cases hc : c ∈ specialChars
        · rw [if_pos hc]
          simp only [List.cons_append, List.nil_append]
          rw [parseStep_catM_cons (f'' + 1) '\\' (c :: quoteMeta cs)
            (show ¬ ('\\' = ')' ∨ '\\' = '|') by decide)]
          rw [parseStep_atomM_esc f'' c (quoteMeta cs)]
          simp only []
          rw [parsePostfix_quoteMeta (Regex.chr c) cs]
          simp only []
          rw [hcat]
        · rw [if_neg hc]
          have h1 : ¬ (c = ')' ∨ c = '|') := by
            rintro (h | h) <;> exact hc (by rw [h]; decide)
          have h2 : ¬ (c = '(') := fun h => hc (by rw [h]; decide)
          have h3 : ¬ (c = '\\') := fun h => hc (by rw [h]; decide)
          have h4 : ¬ (c = '.') := fun h => hc (by rw [h]; decide)
          have h5 : c ∉ [')', '|', '*', '+', '?', '[', ']', '\x7b', '\x7d', '^', '$'] := by
            intro hmem
            have hsub : ∀ x ∈ ([')', '|', '*', '+', '?', '[', ']', '\x7b', '\x7d',
                '^', '$'] : List Char), x ∈ specialChars := by decide
            exact hc (hsub c hmem)
          simp only [List.singleton_append]
          rw [parseStep_catM_cons (f'' + 1) c (quoteMeta cs) h1]
          rw [parseStep_atomM_lit f'' c (quoteMeta cs) h2 h3 h4 h5]
          simp only []
          rw [parsePostfix_quoteMeta (Regex.chr c) cs]
          simp only []
          rw [hcat]

/-- One parsing step at the alternation level. -/
theorem parseStep_altM (f : Nat) (s : Str) :
    parseStep (f + 1) PMode.altM s =
      match parseStep f PMode.catM s with
      | none => none
      | some (r, '|' :: rest) =>
        match parseStep f PMode.altM rest with
        | none => none
        | some (r₁, rest₁) => some (Regex.alt r r₁, rest₁)
      | some (r, rest) => some (r, rest) := by
  simp only [parseStep]

/-- Compiling (`regexp.Compile`) any `QuoteMeta` output succeeds and produces
exactly the literal chain regex: escaping makes every metacharacter
literal. -/
theorem parseRegex_quoteMeta (s : Str) : parseRegex (quoteMeta s) = some (litRegex s) := by
  have hL := length_le_quoteMeta s
  have hcat := parseCat_quoteMeta s (2 * (quoteMeta s).length + 1) (by omega)
  unfold parseRegex
  rw [show 2 * (quoteMeta s).length + 2 = (2 * (quoteMeta s).length + 1) + 1 from rfl]
  rw [parseStep_altM, hcat]

/-- A literal chain regex matches precisely when the literal string is a
prefix, consuming exactly it — independent of the available fuel, as long
as there is enough. -/
theorem mEnds_lit : ∀ (s : Str) (f : Nat) (t : Str), s.length + 1 ≤ f →
    mEnds f (litRegex s) t = if isPrefixB s t then [List.drop s.length t] else [] := by
  intro s
  induction s with
  | nil =>
    intro f t hf
    cases f with
    | zero => omega
    | succ f' => simp [litRegex, mEnds, isPrefixB]
  | cons c cs ih =>
    intro f t hf
    cases f with
    | zero => omega
    | succ f' =>
      cases f' with
      | zero => simp at hf
      | succ f'' =>
        have hf' : cs.length + 1 ≤ f'' + 1 := by simp at hf; omega
        rw [litRegex_cons]
        cases t with
        | nil =>
          simp [mEnds, isPrefixB]
        | cons x xs =>
          simp only [mEnds]
          by_cases hx : x = c
          · subst hx
            rw [if_pos rfl]
            simp only [List.flatMap_cons, List.flatMap_nil, List.append_nil]
            rw [ih (f'' + 1) xs hf']
            simp [isPrefixB]
          · rw [if_neg hx]
            have hcx : decide (c = x) = false := by
              simp only [decide_eq_false_iff_not]
              exact fun h => hx h.symm
            simp [isPrefixB, hcx]

/-- Literal chain regexes are at least as large as the literal. -/
theorem rsize_lit (s : Str) : s.length ≤ rsize (litRegex s) := by
  induction s with
  | nil => simp [litRegex, rsize]
  | cons c cs ih =>
    rw [litRegex_cons]
    simp only [rsize, List.length_cons]
    omega

/-- A Boolean prefix is no longer than the string it prefixes. -/
theorem isPrefixB_length : ∀ (p t : Str), isPrefixB p t = true → p.length ≤ t.length := by
  intro p
  induction p with
  | nil => intro t _; simp
  | cons c cs ih =>
    intro t h
    cases t with
    | nil => simp [isPrefixB] at h
    | cons x xs =>
      simp only [isPrefixB, Bool.and_eq_true] at h
      have := ih xs h.2
      simp only [List.length_cons]
      omega

/-- The fuel `findLeftmost` passes to `mEnds` is enough for a literal
chain regex. -/
theorem mFuel_lit_enough (s t : Str) : s.length + 1 ≤ mFuel (litRegex s) t := by
  have h₁ := rsize_lit s
  have h₂ : rsize (litRegex s) + 1 ≤ (t.length + 1) * (rsize (litRegex s) + 1) :=
    Nat.le_mul_of_pos_left _ (by omega)
  simp only [mFuel]
  omega

/-- The compiled form of a literal pattern matches exactly the literal
text: its leftmost match in any input is precisely the first occurrence
of the literal string, with the literal's own length. -/
theorem findLeftmost_lit (s : Str) : ∀ t, findLeftmost (litRegex s) t = firstOcc s t := by
  intro t
  induction t with
  | nil =>
    rw [findLeftmost, mEnds_lit s _ [] (mFuel_lit_enough s [])]
    cases s with
    | nil => simp [isPrefixB, firstOcc]
    | cons c cs => simp [isPrefixB, firstOcc]
  | cons x xs ih =>
    rw [findLeftmost, mEnds_lit s _ (x :: xs) (mFuel_lit_enough s (x :: xs))]
    by_cases hp : isPrefixB s (x :: xs) = true
    · rw [if_pos hp]
      have hlen := isPrefixB_length s (x :: xs) hp
      simp only [List.length_cons] at hlen
      simp only [List.head?_cons]
      rw [firstOcc, if_pos hp]
      simp only [List.length_drop, List.length_cons]
      congr 1
      congr 1
      omega
    · rw [if_neg hp]
      simp only [List.head?_nil]
      rw [firstOcc, if_neg hp, ih]

end ExecSanitize

/-- C7.  Literal pattern escaping: (1) compiling the quoted form of any
literal string succeeds and yields exactly the chain regex of its
characters — every metacharacter is escaped and an escaped character
denotes itself; (2) that compiled rule matches exactly the literal text
and nothing else: its leftmost match in any input is the literal's first
occurrence, of the literal's own length; (3) concretely,
`New(["ab+c"], ["abbc"], ["ac","a+c"])` sanitizes
"abbc abbbbc abc abbbbbbc" to "ac a+c a+c a+c" — the literal rule touches
only the exact occurrence of "abbc", the regex rule the rest. -/
theorem C7_literal_pattern_escaping :
    (∀ s : ExecSanitize.Str,
      ExecSanitize.parseRegex (ExecSanitize.quoteMeta s) =
        some (ExecSanitize.litRegex s)) ∧
    (∀ s t : ExecSanitize.Str,
      ExecSanitize.findLeftmost (ExecSanitize.litRegex s) t = ExecSanitize.firstOcc s t) ∧
    (ExecSanitize.goNew ["ab+c".toList] ["abbc".toList]
        ["ac".toList, "a+c".toList]).toOption.map
        (fun S => ExecSanitize.bSanitize S ("abbc abbbbc abc abbbbbbc".toList)) =
      some ("ac a+c a+c a+c".toList) := by
  exact ⟨ExecSanitize.parseRegex_quoteMeta, ExecSanitize.findLeftmost_lit, by decide⟩
